import Mathlib

/-!
Verification of the dependency-graph core of ProjectVisualizer
(`server/app/workers/graph.py`).

The Python source is shallowly embedded below.  Interactions with the
file system, the network and the standard library (the results of
`path.rglob`, `os.stat`, `open(...).read()`, `git.Repo.clone_from` and
`urllib.parse.urlparse`) are inputs to the embedded functions: each embedded
entry point receives the outcome of those calls and is otherwise a faithful
translation of the source's control flow.  The three dependency regexes of
`parse_dependencies` are translated into explicit scanners with the
leftmost, non-overlapping semantics of Python's `re.finditer`.
-/

set_option maxHeartbeats 1000000

namespace ProjectVisualizer

/-- Characters matched by the Python regex class `\s`. -/
def isWs (c : Char) : Bool :=
  if c = ' ' then true
  else if c = Char.ofNat 9 then true
  else if c = Char.ofNat 10 then true
  else if c = Char.ofNat 13 then true
  else if c = Char.ofNat 11 then true
  else if c = Char.ofNat 12 then true
  else false

/-- Characters matched by the quote class `["\x27]` of the import patterns
(a double quote or a single quote, `\x27`). -/
def isQuote (c : Char) : Bool :=
  if c = '"' then true else if c = Char.ofNat 39 then true else false

/-- Drop an expected literal from the front of the input; `none` if the input
does not start with it. -/
def dropLit : List Char → List Char → Option (List Char)
  | [], s => some s
  | _ :: _, [] => none
  | l :: ls, c :: cs => if c = l then dropLit ls cs else none

/-- Greedy `\s*`: the length of the leading whitespace run and the rest. -/
def takeWs : List Char → Nat × List Char
  | [] => (0, [])
  | c :: cs =>
    if isWs c then ((takeWs cs).1 + 1, (takeWs cs).2) else (0, c :: cs)

/-- Greedy `[^"\x27]*`: the maximal quote-free run and the rest. -/
def takeNonQuote : List Char → List Char × List Char
  | [] => ([], [])
  | c :: cs =>
    if isQuote c then ([], c :: cs)
    else (c :: (takeNonQuote cs).1, (takeNonQuote cs).2)

/-- Match `["\x27]([^"\x27]+)["\x27]` at the front of the input: an opening
quote, a nonempty quote-free capture, and a closing quote (either kind, as in
the character class).  Returns the capture and the rest of the input. -/
def matchQCap (s : List Char) : Option (List Char × List Char) :=
  match s with
  | [] => none
  | c :: cs =>
    if isQuote c then
      match takeNonQuote cs with
      | (cap, c2 :: rest) =>
        if isQuote c2 then
          if cap.isEmpty then none else some (cap, rest)
        else none
      | (_, []) => none
    else none

/-- Match the tail `from\s+["\x27]([^"\x27]+)["\x27]` at the front. -/
def matchFromTail (s : List Char) : Option (List Char × List Char) :=
  match dropLit ("from".data) s with
  | none => none
  | some r =>
    match takeWs r with
    | (0, _) => none
    | (_ + 1, r2) => matchQCap r2

/-- The lazy `.*?` of pattern 1: try the `from ...` tail at each successive
position, consuming one (non-newline) character at a time; `.` does not match
a newline, so the scan stops at one. -/
def lazyScanFrom : List Char → Option (List Char × List Char)
  | [] => none
  | c :: cs =>
    match matchFromTail (c :: cs) with
    | some res => some res
    | none => if c = Char.ofNat 10 then none else lazyScanFrom cs

/-- Pattern 1 of `parse_dependencies`:
`import\s+.*?from\s+["\x27]([^"\x27]+)["\x27]` matched at the front. -/
def matchP1 (s : List Char) : Option (List Char × List Char) :=
  match dropLit ("import".data) s with
  | none => none
  | some r =>
    match takeWs r with
    | (0, _) => none
    | (_ + 1, r2) => lazyScanFrom r2

/-- Pattern 2 of `parse_dependencies`:
`require\(["\x27]([^"\x27]+)["\x27]\)` matched at the front. -/
def matchP2 (s : List Char) : Option (List Char × List Char) :=
  match dropLit ("require(".data) s with
  | none => none
  | some r =>
    match matchQCap r with
    | none => none
    | some (cap, r2) =>
      match r2 with
      | c2 :: r3 => if c2 = ')' then some (cap, r3) else none
      | [] => none

/-- Pattern 3 of `parse_dependencies`:
`import\s+["\x27]([^"\x27]+)["\x27]` matched at the front. -/
def matchP3 (s : List Char) : Option (List Char × List Char) :=
  match dropLit ("import".data) s with
  | none => none
  | some r =>
    match takeWs r with
    | (0, _) => none
    | (_ + 1, r2) => matchQCap r2

/-- `re.finditer` over one pattern: scan left to right, trying the matcher at
each position; on a match, emit its capture group and resume at the match end.
The fuel argument bounds the recursion; `fuel = s.length` is enough for the
matchers above, each of which consumes at least one character. -/
def finditerAux (m : List Char → Option (List Char × List Char)) :
    Nat → List Char → List (List Char)
  | 0, _ => []
  | _ + 1, [] => []
  | fuel + 1, c :: cs =>
    match m (c :: cs) with
    | some (cap, rest) => cap :: finditerAux m fuel rest
    | none => finditerAux m fuel cs

def finditer (m : List Char → Option (List Char × List Char)) (s : List Char) :
    List (List Char) :=
  finditerAux m s.length s

/-- `finditerAux` instrumented with the start position of each match, used to
state that matches are emitted in increasing position order. -/
def finditerPosAux (m : List Char → Option (List Char × List Char)) :
    Nat → Nat → List Char → List (Nat × List Char)
  | 0, _, _ => []
  | _ + 1, _, [] => []
  | fuel + 1, pos, c :: cs =>
    match m (c :: cs) with
    | some (cap, rest) =>
      (pos, cap) :: finditerPosAux m fuel (pos + ((c :: cs).length - rest.length)) rest
    | none => finditerPosAux m fuel (pos + 1) cs

def finditerPos (m : List Char → Option (List Char × List Char)) (s : List Char) :
    List (Nat × List Char) :=
  finditerPosAux m s.length 0 s

/-- `parse_dependencies` (graph.py lines 12-27): the three patterns applied
independently over the whole content, their captures concatenated in pattern
order. -/
def parse_dependencies (content : String) : List String :=
  ((finditer matchP1 content.data ++ finditer matchP2 content.data)
      ++ finditer matchP3 content.data).map (fun l => String.mk l)

/-- Python `str.endswith`: the last characters of `s` equal `t`. -/
def strEndsWith (s t : String) : Bool :=
  decide (s.data.reverse.take t.data.length = t.data.reverse)

/-- Node metadata built by `get_file_info` from `os.stat` (graph.py
lines 30-37).  The numeric timestamp is abstracted as a natural number. -/
structure FileInfo where
  size : Nat
  path : String
  last_modified : Nat
deriving DecidableEq, Repr

/-- A directed graph with the storage semantics of `networkx.DiGraph`:
nodes are keyed by name and carry optional attributes; there is at most one
stored edge per ordered node pair, and re-adding an edge overwrites its
attributes.  The third component of an edge is its `type` attribute. -/
structure Graph where
  nodes : List (String × Option FileInfo)
  edges : List (String × String × String)
deriving DecidableEq, Repr

def Graph.empty : Graph := ⟨[], []⟩

def Graph.hasNode (g : Graph) (n : String) : Bool :=
  g.nodes.any (fun p => p.1 = n)

/-- `DiGraph` auto-creates an attribute-less node when an edge references an
unknown name. -/
def Graph.ensureNode (g : Graph) (n : String) : Graph :=
  if g.hasNode n then g else ⟨g.nodes ++ [(n, none)], g.edges⟩

/-- `G.add_node(n, **attrs)`: insert a node, or update the attributes of an
existing one. -/
def Graph.add_node (g : Graph) (n : String) (info : FileInfo) : Graph :=
  if g.hasNode n then
    ⟨g.nodes.map (fun p => if p.1 = n then (n, some info) else p), g.edges⟩
  else ⟨g.nodes ++ [(n, some info)], g.edges⟩

def Graph.hasEdge (g : Graph) (u v : String) : Bool :=
  g.edges.any (fun e => e.1 = u && e.2.1 = v)

def Graph.withNodes (g : Graph) (u v : String) : Graph :=
  (g.ensureNode u).ensureNode v

/-- `G.add_edge(u, v, type=t)`: auto-create missing endpoints, then insert the
edge, or overwrite the attributes of the stored edge for this ordered pair. -/
def Graph.add_edge (g : Graph) (u v t : String) : Graph :=
  if (g.withNodes u v).hasEdge u v then
    ⟨(g.withNodes u v).nodes,
      (g.withNodes u v).edges.map
        (fun e => if e.1 = u && e.2.1 = v then (u, v, t) else e)⟩
  else ⟨(g.withNodes u v).nodes, (g.withNodes u v).edges ++ [(u, v, t)]⟩

/-- One file yielded by `path.rglob("*.js")`, together with the outcomes of
the two file-system calls made for it: `os.stat` inside `get_file_info`
(which may raise `OSError`) and `open(...).read()` (which may raise `IOError`
or `UnicodeDecodeError`).  An `Except.error` value stands for the raised
exception's message. -/
structure FileEntry where
  relPath : String
  statResult : Except String FileInfo
  readResult : Except String String

/-- `get_file_info` (graph.py lines 30-37): returns the stat metadata or
raises; the outcome is the one recorded in the entry. -/
def get_file_info (e : FileEntry) : Except String FileInfo :=
  e.statResult

/-- The classification of one extracted specifier and the corresponding
`G.add_edge` call (graph.py lines 57-64), folded over all specifiers of one
file. -/
def addDepEdges (relPath : String) (deps : List String) (g : Graph) : Graph :=
  deps.foldl
    (fun g dep =>
      if strEndsWith dep (".js") then g.add_edge relPath dep ("local")
      else g.add_edge relPath dep ("external"))
    g

/-- The `for file_path in path.rglob("*.js")` loop of
`create_graph_from_js_files` (graph.py lines 45-67).  `get_file_info` is
called outside the inner `try`, so a stat failure escapes to the outer
`except` handler, ending the loop with the graph built so far; a read failure
is caught by the inner handler and only skips that file's specifiers. -/
def processFiles : List FileEntry → Graph → Graph
  | [], g => g
  | e :: rest, g =>
    match get_file_info e with
    | Except.error _ => g
    | Except.ok info =>
      match e.readResult with
      | Except.error _ => processFiles rest (g.add_node e.relPath info)
      | Except.ok content =>
        processFiles rest
          (addDepEdges e.relPath (parse_dependencies content)
            (g.add_node e.relPath info))

/-- `create_graph_from_js_files` (graph.py lines 40-72).  The argument is the
outcome of enumerating `path.rglob("*.js")`: an error value stands for a
traversal that raises at once (e.g. a missing root directory).  Every
exception escaping the loop is caught by the outer handler, printed, and the
graph built so far is returned: the function never raises. -/
def create_graph_from_js_files (listing : Except String (List FileEntry)) :
    Except String Graph :=
  match listing with
  | Except.ok files => Except.ok (processFiles files Graph.empty)
  | Except.error _ => Except.ok Graph.empty

def isSlash (c : Char) : Bool := if c = '/' then true else false

/-- The `.netloc` and `.path` attributes of one `urllib.parse.urlparse`
result.  `urlparse` is standard-library code outside this repository, so —
exactly as with the other library interactions here (`os.stat`, `open`,
`git.Repo.clone_from`) — its outcome on the input URL is an input to the
embedding rather than being re-implemented.  For example, on
`https://github.com/owner/repo` it is `⟨"github.com", "/owner/repo"⟩`, and on
`https://github.com/owner` it is `⟨"github.com", "/owner"⟩` (query, fragment
and parameter components are split off by `urlparse` and do not appear in
`.path`). -/
structure UrlParts where
  netloc : String
  path : String
deriving DecidableEq, Repr

/-- Python `str.strip("/")`: drop leading and trailing slash characters. -/
def stripSlashes (s : List Char) : List Char :=
  ((s.dropWhile isSlash).reverse.dropWhile isSlash).reverse

/-- Python `str.split("/")`: split on every slash; the empty string yields a
single empty segment, and adjacent separators yield empty segments. -/
def splitSlash : List Char → List (List Char)
  | [] => [[]]
  | c :: cs =>
    match splitSlash cs with
    | [] => [[]]
    | g :: gs => if c = '/' then [] :: g :: gs else (c :: g) :: gs

/-- `validate_github_url` (graph.py lines 75-84), applied to the outcome of
`urlparse(url)`: the parsed netloc must be `github.com` and stripping then
splitting the parsed path on `/` must give exactly two segments.  An
`Except.error` outcome stands for `urlparse` raising (e.g. a malformed IPv6
netloc), which the source's `except Exception: return False` turns into a
rejection. -/
def validate_github_url (parsed : Except String UrlParts) : Bool :=
  match parsed with
  | Except.ok p =>
    p.netloc = ("github.com")
      && (splitSlash (stripSlashes p.path.data)).length = 2
  | Except.error _ => false

deriving instance DecidableEq for Except

/-- The observable outcome of one `create_graph_from_github_repo` call: the
returned value or raised error, and whether the temporary clone directory was
created (`tempfile.mkdtemp`) and removed (`shutil.rmtree`). -/
structure FetchOutcome where
  result : Except String Graph
  tempDirCreated : Bool
  tempDirRemoved : Bool
deriving DecidableEq, Repr

/-- `create_graph_from_github_repo` (graph.py lines 87-101).  Validation
happens before `tempfile.mkdtemp()`, so a rejected URL creates no directory
and performs no network action.  The `try/except/finally` wraps the clone and
the collection: any exception is re-raised as `Error cloning repository: ...`
and `shutil.rmtree(temp_dir)` in `finally` runs on every exit path after the
directory exists.  The parse outcome stands for the `urlparse(url)` call
inside the validator and the clone outcome for the network interaction. -/
def create_graph_from_github_repo (parsed : Except String UrlParts)
    (cloneResult : Except String (List FileEntry)) : FetchOutcome :=
  if validate_github_url parsed then
    match cloneResult with
    | Except.error e =>
      ⟨Except.error (("Error cloning repository: ") ++ e), true, true⟩
    | Except.ok files =>
      match create_graph_from_js_files (Except.ok files) with
      | Except.ok g => ⟨Except.ok g, true, true⟩
      | Except.error e =>
        ⟨Except.error (("Error cloning repository: ") ++ e), true, true⟩
  else ⟨Except.error ("Invalid GitHub repository URL"), false, false⟩

/-- The value returned by `visualize_graph`: in the source it is the
`output_path` string; the byte-buffer alternative is included so that the
shape of the returned value is expressible. -/
inductive RenderReturn
  | path (p : String)
  | buffer (imageBytes : List Nat)
deriving DecidableEq, Repr

def RenderReturn.isBuffer : RenderReturn → Bool
  | RenderReturn.path _ => false
  | RenderReturn.buffer _ => true

/-- Label text for one node (graph.py lines 178-181): the last two
slash-separated segments joined by a newline when the name contains a slash,
else the name itself. -/
def nodeLabel (node : String) : String :=
  if node.data.contains '/' then
    String.intercalate (String.mk [Char.ofNat 10])
      (((splitSlash node.data).map (fun l => String.mk l)).drop
        (((splitSlash node.data).map (fun l => String.mk l)).length - 2))
  else node

/-- The observable behaviour of `visualize_graph` (graph.py lines 104-216):
the node partition by the `.js` suffix, the edge partition by the `type`
attribute, the computed labels, the filesystem path passed to `plt.savefig`,
and the returned value.  In the source `output_path` defaults to
`"dependency_graph.png"`. -/
structure RenderResult where
  internalNodes : List String
  externalNodes : List String
  localEdges : List (String × String)
  externalEdges : List (String × String)
  labels : List (String × String)
  savedPath : Option String
  returned : RenderReturn
deriving DecidableEq, Repr

def visualize_graph (g : Graph) (output_path : String) : RenderResult :=
  { internalNodes := (g.nodes.map Prod.fst).filter (fun n => strEndsWith n (".js"))
    externalNodes := (g.nodes.map Prod.fst).filter (fun n => !strEndsWith n (".js"))
    localEdges := (g.edges.filter (fun e => e.2.2 = ("local"))).map (fun e => (e.1, e.2.1))
    externalEdges := (g.edges.filter (fun e => e.2.2 = ("external"))).map (fun e => (e.1, e.2.1))
    labels := (g.nodes.map Prod.fst).map (fun n => (n, nodeLabel n))
    savedPath := some output_path
    returned := RenderReturn.path output_path }

/-! ## Scanner lemmas: every matcher consumes input, and matches are emitted
in increasing position order. -/

theorem dropLit_length : ∀ (lit s r : List Char), dropLit lit s = some r →
    r.length + lit.length = s.length := by
  intro lit
  induction lit with
  | nil =>
    intro s r h
    simp [dropLit] at h
    subst h
    simp
  | cons l ls ih =>
    intro s r h
    cases s with
    | nil => simp [dropLit] at h
    | cons c cs =>
      simp only [dropLit] at h
      split at h
      · have h2 := ih cs r h
        simp only [List.length_cons]
        omega
      · simp at h

theorem takeWs_length : ∀ s : List Char, (takeWs s).1 + (takeWs s).2.length = s.length := by
  intro s
  induction s with
  | nil => simp [takeWs]
  | cons c cs ih =>
    simp only [takeWs]
    split
    · simp only [List.length_cons]
      omega
    · simp

theorem takeNonQuote_length :
    ∀ s : List Char, (takeNonQuote s).1.length + (takeNonQuote s).2.length = s.length := by
  intro s
  induction s with
  | nil => simp [takeNonQuote]
  | cons c cs ih =>
    simp only [takeNonQuote]
    split
    · simp
    · simp only [List.length_cons]
      omega

theorem matchQCap_length : ∀ (s cap r : List Char), matchQCap s = some (cap, r) →
    r.length < s.length := by
  intro s cap r h
  cases s with
  | nil => simp [matchQCap] at h
  | cons c cs =>
    have hlen := takeNonQuote_length cs
    rcases htq : takeNonQuote cs with ⟨cap2, rest2⟩
    rw [htq] at hlen
    cases rest2 with
    | nil =>
      simp only [matchQCap, htq] at h
      split at h <;> simp at h
    | cons c2 rest =>
      simp only [matchQCap, htq] at h
      split at h
      · split at h
        · split at h
          · simp at h
          · simp only [Option.some.injEq, Prod.mk.injEq] at h
            rcases h with ⟨h1, h2⟩
            subst h2
            simp only [List.length_cons] at hlen ⊢
            omega
        · simp at h
      · simp at h

theorem matchFromTail_length : ∀ (s cap r : List Char), matchFromTail s = some (cap, r) →
    r.length < s.length := by
  intro s cap r h
  simp only [matchFromTail] at h
  rcases hd : dropLit (("from").data) s with _ | r1 <;> rw [hd] at h
  · simp at h
  · simp only at h
    have hd2 := dropLit_length _ _ _ hd
    have hw2 := takeWs_length r1
    rcases hw : takeWs r1 with ⟨n, r2⟩
    rw [hw] at h hw2
    cases n with
    | zero => simp at h
    | succ k =>
      simp only at h hw2
      have h3 := matchQCap_length _ _ _ h
      have h4 : (("from").data).length = 4 := rfl
      omega

theorem lazyScanFrom_length : ∀ (s cap r : List Char), lazyScanFrom s = some (cap, r) →
    r.length < s.length := by
  intro s
  induction s with
  | nil => intro cap r h; simp [lazyScanFrom] at h
  | cons c cs ih =>
    intro cap r h
    simp only [lazyScanFrom] at h
    rcases hm : matchFromTail (c :: cs) with _ | res <;> rw [hm] at h
    · simp only at h
      split at h
      · simp at h
      · have := ih cap r h
        simp only [List.length_cons]
        omega
    · simp only [Option.some.injEq] at h
      subst h
      exact matchFromTail_length _ _ _ hm

theorem matchP1_length : ∀ (s cap r : List Char), matchP1 s = some (cap, r) →
    r.length < s.length := by
  intro s cap r h
  simp only [matchP1] at h
  rcases hd : dropLit (("import").data) s with _ | r1 <;> rw [hd] at h
  · simp at h
  · simp only at h
    have hd2 := dropLit_length _ _ _ hd
    have hw2 := takeWs_length r1
    rcases hw : takeWs r1 with ⟨n, r2⟩
    rw [hw] at h hw2
    cases n with
    | zero => simp at h
    | succ k =>
      simp only at h hw2
      have h3 := lazyScanFrom_length _ _ _ h
      have h4 : (("import").data).length = 6 := rfl
      omega

theorem matchP2_length : ∀ (s cap r : List Char), matchP2 s = some (cap, r) →
    r.length < s.length := by
  intro s cap r h
  simp only [matchP2] at h
  rcases hd : dropLit (("require(").data) s with _ | r1 <;> rw [hd] at h
  · simp at h
  · simp only at h
    have hd2 := dropLit_length _ _ _ hd
    rcases hq : matchQCap r1 with _ | ⟨cap2, r2⟩ <;> rw [hq] at h
    · simp at h
    · simp only at h
      have hql := matchQCap_length r1 cap2 r2 hq
      cases r2 with
      | nil => simp at h
      | cons c2 r3 =>
        simp only at h
        split at h
        · simp only [Option.some.injEq, Prod.mk.injEq] at h
          rcases h with ⟨h1, h2⟩
          subst h2
          have h4 : (("require(").data).length = 8 := rfl
          simp only [List.length_cons] at hql
          omega
        · simp at h

theorem matchP3_length : ∀ (s cap r : List Char), matchP3 s = some (cap, r) →
    r.length < s.length := by
  intro s cap r h
  simp only [matchP3] at h
  rcases hd : dropLit (("import").data) s with _ | r1 <;> rw [hd] at h
  · simp at h
  · simp only at h
    have hd2 := dropLit_length _ _ _ hd
    have hw2 := takeWs_length r1
    rcases hw : takeWs r1 with ⟨n, r2⟩
    rw [hw] at h hw2
    cases n with
    | zero => simp at h
    | succ k =>
      simp only at h hw2
      have h3 := matchQCap_length _ _ _ h
      have h4 : (("import").data).length = 6 := rfl
      omega

theorem finditerPosAux_map_snd (m : List Char → Option (List Char × List Char)) :
    ∀ (fuel : Nat) (pos : Nat) (s : List Char),
      (finditerPosAux m fuel pos s).map Prod.snd = finditerAux m fuel s := by
  intro fuel
  induction fuel with
  | zero => intro pos s; simp [finditerPosAux, finditerAux]
  | succ k ih =>
    intro pos s
    cases s with
    | nil => simp [finditerPosAux, finditerAux]
    | cons c cs =>
      simp only [finditerPosAux, finditerAux]
      rcases hm : m (c :: cs) with _ | ⟨cap, rest⟩ <;> simp [hm, ih]

theorem finditerPosAux_le (m : List Char → Option (List Char × List Char)) :
    ∀ (fuel pos : Nat) (s : List Char) (q : Nat × List Char),
      q ∈ finditerPosAux m fuel pos s → pos ≤ q.1 := by
  intro fuel
  induction fuel with
  | zero => intro pos s q h; simp [finditerPosAux] at h
  | succ k ih =>
    intro pos s q h
    cases s with
    | nil => simp [finditerPosAux] at h
    | cons c cs =>
      simp only [finditerPosAux] at h
      rcases hm : m (c :: cs) with _ | ⟨cap, rest⟩ <;> rw [hm] at h
      · simp only at h
        have := ih (pos + 1) cs q h
        omega
      · simp only at h
        rcases List.mem_cons.mp h with h1 | h1
        · subst h1; simp
        · have := ih _ rest q h1
          omega

theorem finditerPosAux_pairwise (m : List Char → Option (List Char × List Char))
    (hm : ∀ s cap r, m s = some (cap, r) → r.length < s.length) :
    ∀ (fuel pos : Nat) (s : List Char),
      (finditerPosAux m fuel pos s).Pairwise (fun a b => a.1 < b.1) := by
  intro fuel
  induction fuel with
  | zero => intro pos s; simp [finditerPosAux]
  | succ k ih =>
    intro pos s
    cases s with
    | nil => simp [finditerPosAux]
    | cons c cs =>
      simp only [finditerPosAux]
      rcases hmc : m (c :: cs) with _ | ⟨cap, rest⟩
      · exact ih (pos + 1) cs
      · refine List.Pairwise.cons ?_ (ih _ rest)
        intro q hq
        have h1 := finditerPosAux_le m k _ rest q hq
        have h2 := hm _ _ _ hmc
        simp only [List.length_cons] at h1 h2
        omega

/-- C8: `parse_dependencies` returns exactly the captures of the three patterns
(import-from, require, side-effect import) applied independently over the whole
content, concatenated in that fixed pattern order; within each pattern the
captures appear in strictly increasing order of match position in the text. -/
theorem parse_dependencies_pattern_and_position_order (content : String) :
    parse_dependencies content =
        (((finditerPos matchP1 content.data).map (fun q => String.mk q.2)
            ++ (finditerPos matchP2 content.data).map (fun q => String.mk q.2))
          ++ (finditerPos matchP3 content.data).map (fun q => String.mk q.2))
      ∧ (finditerPos matchP1 content.data).Pairwise (fun a b => a.1 < b.1)
      ∧ (finditerPos matchP2 content.data).Pairwise (fun a b => a.1 < b.1)
      ∧ (finditerPos matchP3 content.data).Pairwise (fun a b => a.1 < b.1) := by
  refine ⟨?_, ?_, ?_, ?_⟩
  · simp only [parse_dependencies, finditer, finditerPos, List.map_append]
    rw [← finditerPosAux_map_snd matchP1 content.data.length 0 content.data,
      ← finditerPosAux_map_snd matchP2 content.data.length 0 content.data,
      ← finditerPosAux_map_snd matchP3 content.data.length 0 content.data]
    simp only [List.map_map]
    rfl
  · exact finditerPosAux_pairwise matchP1 matchP1_length _ _ _
  · exact finditerPosAux_pairwise matchP2 matchP2_length _ _ _
  · exact finditerPosAux_pairwise matchP3 matchP3_length _ _ _

/-! ## Graph lemmas: edge membership under the `DiGraph` update operations. -/

theorem ensureNode_edges (g : Graph) (n : String) : (g.ensureNode n).edges = g.edges := by
  unfold Graph.ensureNode
  split <;> rfl

theorem withNodes_edges (g : Graph) (u v : String) : (g.withNodes u v).edges = g.edges := by
  unfold Graph.withNodes
  rw [ensureNode_edges, ensureNode_edges]

theorem add_node_edges (g : Graph) (n : String) (i : FileInfo) :
    (g.add_node n i).edges = g.edges := by
  unfold Graph.add_node
  split <;> rfl

theorem hasEdge_eq_true_iff (g : Graph) (u v : String) :
    g.hasEdge u v = true ↔ ∃ e ∈ g.edges, e.1 = u ∧ e.2.1 = v := by
  simp [Graph.hasEdge, List.any_eq_true, Bool.and_eq_true, decide_eq_true_eq]

theorem withNodes_hasEdge (g : Graph) (a b u v : String) :
    (g.withNodes a b).hasEdge u v = g.hasEdge u v := by
  unfold Graph.hasEdge
  rw [withNodes_edges]

theorem mem_add_edge_elim {g : Graph} {a b c u v t : String}
    (h : (u, v, t) ∈ (g.add_edge a b c).edges) :
    (u, v, t) ∈ g.edges ∨ (u = a ∧ v = b ∧ t = c) := by
  unfold Graph.add_edge at h
  split at h
  · simp only at h
    rw [withNodes_edges] at h
    rcases List.mem_map.mp h with ⟨⟨x1, x2, x3⟩, hx, hfx⟩
    split at hfx
    · simp only [Prod.mk.injEq] at hfx
      exact Or.inr ⟨hfx.1.symm, hfx.2.1.symm, hfx.2.2.symm⟩
    · rw [hfx] at hx
      exact Or.inl hx
  · simp only at h
    rw [withNodes_edges] at h
    rcases List.mem_append.mp h with h1 | h1
    · exact Or.inl h1
    · right
      simp at h1
      exact ⟨h1.1, h1.2.1, h1.2.2⟩

theorem mem_add_edge_self (g : Graph) (a b c : String) :
    (a, b, c) ∈ (g.add_edge a b c).edges := by
  unfold Graph.add_edge
  split
  · next hcond =>
    simp only
    rw [withNodes_edges]
    rw [withNodes_hasEdge] at hcond
    rcases (hasEdge_eq_true_iff g a b).mp hcond with ⟨⟨e1, e2, e3⟩, he, h1, h2⟩
    refine List.mem_map.mpr ⟨(e1, e2, e3), he, ?_⟩
    simp only at h1 h2
    simp [h1, h2]
  · simp only
    exact List.mem_append_right _ (List.mem_singleton.mpr rfl)

theorem mem_add_edge_of_mem {g : Graph} {u v t : String} (a b c : String)
    (h : (u, v, t) ∈ g.edges) :
    ∃ t2, (u, v, t2) ∈ (g.add_edge a b c).edges := by
  unfold Graph.add_edge
  split
  · simp only
    rw [withNodes_edges]
    by_cases h1 : u = a
    · by_cases h2 : v = b
      · subst h1
        subst h2
        exact ⟨c, List.mem_map.mpr ⟨(u, v, t), h, by simp⟩⟩
      · exact ⟨t, List.mem_map.mpr ⟨(u, v, t), h, by simp [h2]⟩⟩
    · exact ⟨t, List.mem_map.mpr ⟨(u, v, t), h, by simp [h1]⟩⟩
  · simp only
    rw [withNodes_edges]
    exact ⟨t, List.mem_append_left _ h⟩

/-- An ordered node pair joined by some stored edge. -/
def pairMem (g : Graph) (u v : String) : Prop := ∃ t, (u, v, t) ∈ g.edges

theorem pairMem_add_edge {g : Graph} {u v : String} (a b c : String)
    (h : pairMem g u v) : pairMem (g.add_edge a b c) u v := by
  rcases h with ⟨t, ht⟩
  rcases mem_add_edge_of_mem a b c ht with ⟨t2, ht2⟩
  exact ⟨t2, ht2⟩

theorem pairMem_self_add_edge (g : Graph) (a b c : String) :
    pairMem (g.add_edge a b c) a b :=
  ⟨c, mem_add_edge_self g a b c⟩

theorem pairMem_add_node {g : Graph} {u v : String} (n : String) (i : FileInfo)
    (h : pairMem g u v) : pairMem (g.add_node n i) u v := by
  rcases h with ⟨t, ht⟩
  refine ⟨t, ?_⟩
  rw [add_node_edges]
  exact ht

/-- The edge type the builder chooses for a specifier (graph.py lines 57-64):
`local` exactly when the specifier ends with `.js`, else `external`. -/
def depType (dep : String) : String :=
  if strEndsWith dep (".js") then ("local") else ("external")

/-- The two branches of the source's `if dep.endswith(".js")` are one
`add_edge` call with the conditional type. -/
theorem addDepEdges_step (rp d : String) (g : Graph) :
    (if strEndsWith d (".js") then g.add_edge rp d ("local")
      else g.add_edge rp d ("external")) = g.add_edge rp d (depType d) := by
  unfold depType
  split <;> rfl

theorem addDepEdges_eq_foldl (rp : String) (deps : List String) (g : Graph) :
    addDepEdges rp deps g = deps.foldl (fun g d => g.add_edge rp d (depType d)) g := by
  induction deps generalizing g with
  | nil => rfl
  | cons d ds ih =>
    simp only [addDepEdges, List.foldl_cons] at ih ⊢
    rw [addDepEdges_step]
    exact ih _

theorem addDepEdges_pairMem_mono (rp : String) :
    ∀ (deps : List String) (g : Graph) (u v : String),
      pairMem g u v → pairMem (addDepEdges rp deps g) u v := by
  intro deps
  induction deps with
  | nil => intro g u v h; exact h
  | cons d ds ih =>
    intro g u v h
    rw [addDepEdges_eq_foldl] at *
    simp only [List.foldl_cons]
    rw [← addDepEdges_eq_foldl]
    exact ih _ u v (pairMem_add_edge rp d (depType d) h)

theorem addDepEdges_pairMem_self (rp : String) :
    ∀ (deps : List String) (g : Graph) (d : String), d ∈ deps →
      pairMem (addDepEdges rp deps g) rp d := by
  intro deps
  induction deps with
  | nil => intro g d h; simp at h
  | cons d0 ds ih =>
    intro g d h
    rw [addDepEdges_eq_foldl]
    simp only [List.foldl_cons]
    rw [← addDepEdges_eq_foldl]
    rcases List.mem_cons.mp h with h1 | h1
    · subst h1
      exact addDepEdges_pairMem_mono rp ds _ _ _ (pairMem_self_add_edge g rp d (depType d))
    · exact ih _ d h1

theorem mem_addDepEdges_elim (rp : String) :
    ∀ (deps : List String) (g : Graph) (u v t : String),
      (u, v, t) ∈ (addDepEdges rp deps g).edges → (u, v, t) ∈ g.edges ∨ u = rp := by
  intro deps
  induction deps with
  | nil => intro g u v t h; exact Or.inl h
  | cons d ds ih =>
    intro g u v t h
    rw [addDepEdges_eq_foldl] at h
    simp only [List.foldl_cons] at h
    rw [← addDepEdges_eq_foldl] at h
    rcases ih _ u v t h with h1 | h1
    · rcases mem_add_edge_elim h1 with h2 | ⟨h2, _, _⟩
      · exact Or.inl h2
      · exact Or.inr h2
    · exact Or.inr h1

/-- Every stored edge carries the type the builder computes from its target's
suffix. -/
def TypeOK (g : Graph) : Prop := ∀ u v t, (u, v, t) ∈ g.edges → t = depType v

theorem typeOK_empty : TypeOK Graph.empty := by
  intro u v t h
  simp [Graph.empty] at h

theorem typeOK_add_edge {g : Graph} (a b : String) (h : TypeOK g) :
    TypeOK (g.add_edge a b (depType b)) := by
  intro u v t hm
  rcases mem_add_edge_elim hm with h1 | ⟨_, h2, h3⟩
  · exact h u v t h1
  · subst h2
    exact h3

theorem typeOK_add_node {g : Graph} (n : String) (i : FileInfo) (h : TypeOK g) :
    TypeOK (g.add_node n i) := by
  intro u v t hm
  rw [add_node_edges] at hm
  exact h u v t hm

theorem typeOK_addDepEdges (rp : String) :
    ∀ (deps : List String) (g : Graph), TypeOK g → TypeOK (addDepEdges rp deps g) := by
  intro deps
  induction deps with
  | nil => intro g h; exact h
  | cons d ds ih =>
    intro g h
    rw [addDepEdges_eq_foldl]
    simp only [List.foldl_cons]
    rw [← addDepEdges_eq_foldl]
    exact ih _ (typeOK_add_edge rp d h)

/-! ## Loop-level lemmas. -/

theorem processFiles_pairMem_mono :
    ∀ (files : List FileEntry) (g : Graph) (u v : String),
      pairMem g u v → pairMem (processFiles files g) u v := by
  intro files
  induction files with
  | nil => intro g u v h; exact h
  | cons e rest ih =>
    intro g u v h
    simp only [processFiles]
    rcases hstat : get_file_info e with m | i <;> simp only [hstat]
    · exact h
    · rcases hread : e.readResult with m2 | content <;> simp only [hread]
      · exact ih _ u v (pairMem_add_node _ _ h)
      · exact ih _ u v (addDepEdges_pairMem_mono _ _ _ u v (pairMem_add_node _ _ h))

theorem processFiles_typeOK :
    ∀ (files : List FileEntry) (g : Graph), TypeOK g → TypeOK (processFiles files g) := by
  intro files
  induction files with
  | nil => intro g h; exact h
  | cons e rest ih =>
    intro g h
    simp only [processFiles]
    rcases hstat : get_file_info e with m | i <;> simp only [hstat]
    · exact h
    · rcases hread : e.readResult with m2 | content <;> simp only [hread]
      · exact ih _ (typeOK_add_node _ _ h)
      · exact ih _ (typeOK_addDepEdges _ _ _ (typeOK_add_node _ _ h))

theorem processFiles_member_pairMem :
    ∀ (files : List FileEntry) (g : Graph) (e : FileEntry) (content dep : String),
      (∀ x ∈ files, ∃ i, x.statResult = Except.ok i) →
      e ∈ files → e.readResult = Except.ok content →
      dep ∈ parse_dependencies content →
      pairMem (processFiles files g) e.relPath dep := by
  intro files
  induction files with
  | nil => intro g e content dep hall he hr hd; simp at he
  | cons x rest ih =>
    intro g e content dep hall he hr hd
    rcases hall x (List.mem_cons_self x rest) with ⟨i, hi⟩
    simp only [processFiles, get_file_info, hi]
    rcases List.mem_cons.mp he with h1 | h1
    · subst h1
      rw [hr]
      simp only
      exact processFiles_pairMem_mono rest _ _ _
        (addDepEdges_pairMem_self e.relPath _ _ dep hd)
    · rcases hread : x.readResult with m2 | c2 <;> simp only [hread]
      · exact ih _ e content dep (fun y hy => hall y (List.mem_cons_of_mem x hy)) h1 hr hd
      · exact ih _ e content dep (fun y hy => hall y (List.mem_cons_of_mem x hy)) h1 hr hd

theorem processFiles_src :
    ∀ (files : List FileEntry) (g : Graph) (u v t : String),
      (u, v, t) ∈ (processFiles files g).edges →
      (u, v, t) ∈ g.edges ∨
        ∃ e, e ∈ files ∧ e.relPath = u ∧ (∃ i, e.statResult = Except.ok i) ∧
          ∃ c, e.readResult = Except.ok c := by
  intro files
  induction files with
  | nil => intro g u v t h; exact Or.inl h
  | cons e rest ih =>
    intro g u v t h
    simp only [processFiles] at h
    rcases hstat : get_file_info e with m | i <;> rw [hstat] at h <;> simp only at h
    · exact Or.inl h
    · rcases hread : e.readResult with m2 | content <;> rw [hread] at h <;> simp only at h
      · rcases ih _ u v t h with h1 | ⟨e2, he2, h2, h3, h4⟩
        · rw [add_node_edges] at h1
          exact Or.inl h1
        · exact Or.inr ⟨e2, List.mem_cons_of_mem e he2, h2, h3, h4⟩
      · rcases ih _ u v t h with h1 | ⟨e2, he2, h2, h3, h4⟩
        · rcases mem_addDepEdges_elim _ _ _ u v t h1 with h2 | h2
          · rw [add_node_edges] at h2
            exact Or.inl h2
          · exact Or.inr ⟨e, List.mem_cons_self e rest, h2.symm, ⟨i, hstat⟩, content, hread⟩
        · exact Or.inr ⟨e2, List.mem_cons_of_mem e he2, h2, h3, h4⟩

/-! ## Parallel-edge collapse: `DiGraph` stores at most one edge per ordered
pair. -/

/-- The ordered node pairs of the stored edges. -/
def pairsOf (g : Graph) : List (String × String) :=
  g.edges.map (fun e => (e.1, e.2.1))

theorem pairsOf_add_edge (g : Graph) (a b c : String)
    (h : (pairsOf g).Nodup) : (pairsOf (g.add_edge a b c)).Nodup := by
  unfold Graph.add_edge
  split
  · next hcond =>
    simp only [pairsOf]
    rw [withNodes_edges]
    have hmapeq :
        (g.edges.map (fun e => if e.1 = a && e.2.1 = b then (a, b, c) else e)).map
            (fun e => (e.1, e.2.1))
          = g.edges.map (fun e => (e.1, e.2.1)) := by
      rw [List.map_map]
      congr 1
      funext x
      rcases x with ⟨x1, x2, x3⟩
      simp only [Function.comp]
      split
      · next hx =>
        simp only [Bool.and_eq_true, decide_eq_true_eq] at hx
        simp [hx.1, hx.2]
      · rfl
    rw [hmapeq]
    exact h
  · next hcond =>
    simp only [pairsOf]
    rw [withNodes_edges, List.map_append]
    refine List.Nodup.append h (List.nodup_singleton _) ?_
    intro x hx hx2
    simp only [List.map_cons, List.map_nil, List.mem_singleton] at hx2
    subst hx2
    rcases List.mem_map.mp hx with ⟨⟨e1, e2, e3⟩, he, hpe⟩
    simp only [Prod.mk.injEq] at hpe
    apply hcond
    rw [withNodes_hasEdge]
    exact (hasEdge_eq_true_iff g a b).mpr ⟨(e1, e2, e3), he, hpe.1, hpe.2⟩

theorem pairsOf_add_node (g : Graph) (n : String) (i : FileInfo) :
    pairsOf (g.add_node n i) = pairsOf g := by
  unfold pairsOf
  rw [add_node_edges]

theorem pairsOf_addDepEdges (rp : String) :
    ∀ (deps : List String) (g : Graph),
      (pairsOf g).Nodup → (pairsOf (addDepEdges rp deps g)).Nodup := by
  intro deps
  induction deps with
  | nil => intro g h; exact h
  | cons d ds ih =>
    intro g h
    rw [addDepEdges_eq_foldl]
    simp only [List.foldl_cons]
    rw [← addDepEdges_eq_foldl]
    exact ih _ (pairsOf_add_edge g rp d (depType d) h)

theorem processFiles_pairsOf_nodup :
    ∀ (files : List FileEntry) (g : Graph),
      (pairsOf g).Nodup → (pairsOf (processFiles files g)).Nodup := by
  intro files
  induction files with
  | nil => intro g h; exact h
  | cons e rest ih =>
    intro g h
    simp only [processFiles]
    rcases hstat : get_file_info e with m | i <;> simp only [hstat]
    · exact h
    · rcases hread : e.readResult with m2 | content <;> simp only [hread]
      · exact ih _ (by rw [pairsOf_add_node]; exact h)
      · exact ih _ (pairsOf_addDepEdges _ _ _ (by rw [pairsOf_add_node]; exact h))

/-! ## Concrete inputs used by witnesses and counterexamples. -/

def infoA : FileInfo := ⟨3, ("/tmp/a.js"), 0⟩

def entryA : FileEntry :=
  ⟨("a.js"), Except.ok infoA, Except.ok ("import x from \"./b.js\"")⟩

def entryDup : FileEntry :=
  ⟨("a.js"), Except.ok infoA, Except.ok ("require(\"./b.js\")\nrequire(\"./b.js\")")⟩

def infoG : FileInfo := ⟨5, ("/tmp/good.js"), 0⟩

def entryBad : FileEntry := ⟨("bad.js"), Except.error ("stat failed"), Except.ok ("")⟩

def entryGood : FileEntry := ⟨("good.js"), Except.ok infoG, Except.ok ("")⟩

/-! ## Claims. -/

/-- C1: for every specifier extracted from a collected file, the built graph
contains a directed edge from that file's node to the node keyed by the
specifier, and its `type` attribute is `local` exactly when the specifier
string ends with `.js`, `external` otherwise — independent of whether a node
for that specifier was collected from the directory tree (no assumption on
`dep` relates it to any collected file). -/
theorem extracted_specifier_yields_typed_edge
    (files : List FileEntry) (e : FileEntry) (content dep : String)
    (hstats : ∀ x ∈ files, ∃ i, x.statResult = Except.ok i)
    (he : e ∈ files) (hread : e.readResult = Except.ok content)
    (hdep : dep ∈ parse_dependencies content)
    (g : Graph) (hg : create_graph_from_js_files (Except.ok files) = Except.ok g) :
    (e.relPath, dep,
      if strEndsWith dep (".js") then ("local" : String) else ("external" : String))
      ∈ g.edges := by
  have hg2 : processFiles files Graph.empty = g := Except.ok.inj hg
  subst hg2
  have hpair := processFiles_member_pairMem files Graph.empty e content dep hstats he hread hdep
  have htype := processFiles_typeOK files Graph.empty typeOK_empty
  rcases hpair with ⟨t, ht⟩
  have heq := htype _ _ _ ht
  subst heq
  exact ht

/-- Witness for C1 at a one-file listing whose content holds one import. -/
theorem extracted_specifier_yields_typed_edge_witness :
    (("a.js" : String), ("./b.js" : String),
      if strEndsWith ("./b.js") (".js") then ("local" : String) else ("external" : String))
      ∈ (processFiles [entryA] Graph.empty).edges :=
  extracted_specifier_yields_typed_edge [entryA] entryA
    ("import x from \"./b.js\"") ("./b.js")
    (fun x hx => by
      rw [List.mem_singleton] at hx
      subst hx
      exact ⟨infoA, rfl⟩)
    (List.mem_singleton.mpr rfl) rfl (by decide)
    (processFiles [entryA] Graph.empty) rfl

/-- C2 counterexample: a file whose content holds the same `require` specifier
twice.  Both occurrences are extracted, but the built graph stores exactly ONE
edge for the ordered pair, because `nx.DiGraph` collapses parallel edges — the
claim predicts two distinct parallel edges. -/
theorem duplicate_specifier_single_edge_counterexample :
    parse_dependencies ("require(\"./b.js\")\nrequire(\"./b.js\")")
        = [("./b.js"), ("./b.js")]
      ∧ create_graph_from_js_files (Except.ok [entryDup])
          = Except.ok
              ⟨[(("a.js"), some infoA), (("./b.js"), none)],
                [(("a.js"), ("./b.js"), ("local"))]⟩ := by
  exact ⟨by decide, by decide⟩

/-- C2 amended: each repeated specifier issues its own `add_edge` call, but the
`DiGraph` storage collapses parallel edges: every graph the builder returns has
at most one stored edge per ordered node pair (the repeated call only
overwrites the stored edge's attributes). -/
theorem built_graph_collapses_parallel_edges
    (listing : Except String (List FileEntry)) (g : Graph)
    (h : create_graph_from_js_files listing = Except.ok g) :
    (pairsOf g).Nodup := by
  cases listing with
  | ok files =>
    have hg2 : processFiles files Graph.empty = g := Except.ok.inj h
    subst hg2
    exact processFiles_pairsOf_nodup files Graph.empty (by simp [pairsOf, Graph.empty])
  | error m =>
    have hg2 : Graph.empty = g := Except.ok.inj h
    subst hg2
    simp [pairsOf, Graph.empty]

/-- Witness for the amended C2 at the duplicate-import listing. -/
theorem built_graph_collapses_parallel_edges_witness :
    (pairsOf (processFiles [entryDup] Graph.empty)).Nodup :=
  built_graph_collapses_parallel_edges (Except.ok [entryDup])
    (processFiles [entryDup] Graph.empty) rfl

/-- C10: in every graph returned by `create_graph_from_js_files`, the source
node of every edge is the relative path of a collected file — hence (files
coming from `rglob("*.js")`, whose names all end in `.js`) it ends with
`.js` — and a node that is not any collected file's relative path (a dangling
reference or external package created only as an edge target) has no outgoing
edges. -/
theorem edge_sources_are_collected_files (files : List FileEntry)
    (hjs : ∀ x ∈ files, strEndsWith x.relPath (".js") = true)
    (g : Graph) (hg : create_graph_from_js_files (Except.ok files) = Except.ok g) :
    (∀ u v t, (u, v, t) ∈ g.edges →
        strEndsWith u (".js") = true
          ∧ ∃ e, e ∈ files ∧ e.relPath = u ∧ ∃ i, e.statResult = Except.ok i)
      ∧ ∀ n, (∀ x ∈ files, x.relPath ≠ n) → ∀ v t, (n, v, t) ∈ g.edges → False := by
  have hg2 : processFiles files Graph.empty = g := Except.ok.inj hg
  subst hg2
  constructor
  · intro u v t h
    rcases processFiles_src files Graph.empty u v t h with h1 | ⟨e, he, hrel, hstat, _⟩
    · simp [Graph.empty] at h1
    · refine ⟨?_, e, he, hrel, hstat⟩
      rw [← hrel]
      exact hjs e he
  · intro n hn v t h
    rcases processFiles_src files Graph.empty n v t h with h1 | ⟨e, he, hrel, _, _⟩
    · simp [Graph.empty] at h1
    · exact hn e he hrel

/-- Witness for C10 at a one-file listing. -/
theorem edge_sources_are_collected_files_witness :
    (∀ u v t, (u, v, t) ∈ (processFiles [entryA] Graph.empty).edges →
        strEndsWith u (".js") = true
          ∧ ∃ e, e ∈ [entryA] ∧ e.relPath = u ∧ ∃ i, e.statResult = Except.ok i)
      ∧ ∀ n, (∀ x ∈ [entryA], x.relPath ≠ n) →
          ∀ v t, (n, v, t) ∈ (processFiles [entryA] Graph.empty).edges → False :=
  edge_sources_are_collected_files [entryA]
    (fun x hx => by
      rw [List.mem_singleton] at hx
      subst hx
      decide)
    (processFiles [entryA] Graph.empty) rfl

/-- C3: whenever the URL passes validation, the temporary clone workspace is
created and is removed again on every exit path — successful build, clone
failure, and any failure inside the collection — because `shutil.rmtree` runs
in the `finally` block. -/
theorem temp_workspace_always_removed (parsed : Except String UrlParts)
    (cloneResult : Except String (List FileEntry))
    (h : validate_github_url parsed = true) :
    (create_graph_from_github_repo parsed cloneResult).tempDirCreated = true
      ∧ (create_graph_from_github_repo parsed cloneResult).tempDirRemoved = true := by
  cases cloneResult <;>
    simp [create_graph_from_github_repo, create_graph_from_js_files, h]

/-- Witness for C3 at a valid URL whose clone fails: the parse outcome of
`https://github.com/owner/repo` is netloc `github.com`, path `/owner/repo`. -/
theorem temp_workspace_always_removed_witness :
    (create_graph_from_github_repo (Except.ok ⟨("github.com"), ("/owner/repo")⟩)
        (Except.error ("network failure"))).tempDirCreated = true
      ∧ (create_graph_from_github_repo (Except.ok ⟨("github.com"), ("/owner/repo")⟩)
          (Except.error ("network failure"))).tempDirRemoved = true :=
  temp_workspace_always_removed (Except.ok ⟨("github.com"), ("/owner/repo")⟩)
    (Except.error ("network failure")) (by decide)

/-- C5 counterexample: for a root whose traversal raises at once (a missing or
unreadable directory), `create_graph_from_js_files` does not fail with an
`InvalidPath` error — the outer handler swallows the exception and the
function returns an (empty) graph. -/
theorem invalid_root_returns_graph_counterexample :
    create_graph_from_js_files (Except.error ("No such file or directory"))
      = Except.ok Graph.empty := rfl

/-- C5 amended: `create_graph_from_js_files` never fails.  For every root
whose traversal raises, the error is caught and logged and the empty graph is
returned; the rejection of nonexistent paths is performed by the HTTP route's
`os.path.exists` check before this function is called. -/
theorem invalid_root_returns_empty_graph :
    ∀ msg : String,
      create_graph_from_js_files (Except.error msg) = Except.ok Graph.empty :=
  fun _ => rfl

/-- C6 counterexample: a listing of two files in which the first file's stat
fails.  The claim predicts that only that file is skipped and the second file
is still collected; instead the stat exception escapes to the outer handler,
the loop stops, and the returned graph has no node for the second file. -/
theorem stat_failure_aborts_collection_counterexample :
    create_graph_from_js_files (Except.ok [entryBad, entryGood]) = Except.ok Graph.empty
      ∧ (processFiles [entryBad, entryGood] Graph.empty).hasNode ("good.js") = false :=
  ⟨by decide, by decide⟩

theorem processFiles_stat_error_append (post : List FileEntry) (e : FileEntry)
    (msg : String) (h : e.statResult = Except.error msg) :
    ∀ (pre : List FileEntry) (g : Graph),
      processFiles (pre ++ e :: post) g = processFiles pre g := by
  intro pre
  induction pre with
  | nil =>
    intro g
    simp only [List.nil_append, processFiles, get_file_info, h]
  | cons x xs ih =>
    intro g
    simp only [List.cons_append, processFiles]
    rcases hstat : get_file_info x with m | i <;> simp only [hstat]
    rcases hread : x.readResult with m2 | c2 <;> simp only [hread] <;> exact ih _

/-- C6 amended: when stat fails for one file, the error is caught (and
printed) by the OUTER handler, so that file's node is skipped but the
collection of all later files is aborted as well; the build still returns the
graph accumulated before the failure. -/
theorem stat_failure_stops_loop (pre post : List FileEntry) (e : FileEntry)
    (msg : String) (h : e.statResult = Except.error msg) :
    create_graph_from_js_files (Except.ok (pre ++ e :: post))
      = create_graph_from_js_files (Except.ok pre) := by
  simp only [create_graph_from_js_files]
  rw [processFiles_stat_error_append post e msg h pre Graph.empty]

/-- Witness for the amended C6. -/
theorem stat_failure_stops_loop_witness :
    create_graph_from_js_files (Except.ok ([] ++ entryBad :: [entryGood]))
      = create_graph_from_js_files (Except.ok []) :=
  stat_failure_stops_loop [] [entryGood] entryBad ("stat failed") rfl

/-- C9 counterexample: `visualize_graph` writes the raster image to the
filesystem path `output_path` (whose module default is
`dependency_graph.png`, a path in the process working directory) via
`plt.savefig`, and returns that path string — not an in-memory byte buffer. -/
theorem renderer_saves_to_path_counterexample :
    (visualize_graph Graph.empty ("dependency_graph.png")).savedPath
        = some ("dependency_graph.png")
      ∧ (visualize_graph Graph.empty ("dependency_graph.png")).returned
          = RenderReturn.path ("dependency_graph.png")
      ∧ ((visualize_graph Graph.empty ("dependency_graph.png")).returned).isBuffer
          = false :=
  ⟨rfl, rfl, rfl⟩

/-- C9 amended: the renderer always saves the image to the caller-supplied
`output_path` and returns that path string; the in-memory byte buffer is
produced by the HTTP route, which passes a temporary path it controls and
reads the file back itself. -/
theorem renderer_returns_output_path :
    ∀ (g : Graph) (p : String),
      (visualize_graph g p).savedPath = some p
        ∧ (visualize_graph g p).returned = RenderReturn.path p :=
  fun _ _ => ⟨rfl, rfl⟩

/-! ## URL validation lemmas for C4. -/

theorem splitSlash_ne_nil : ∀ t : List Char, splitSlash t ≠ [] := by
  intro t
  cases t with
  | nil => simp [splitSlash]
  | cons c cs =>
    simp only [splitSlash]
    rcases h : splitSlash cs with _ | ⟨g, gs⟩ <;> simp only [h]
    · simp
    · split <;> simp

theorem splitSlash_single : ∀ t b : List Char, splitSlash t = [b] → t = b ∧ ('/') ∉ b := by
  intro t
  induction t with
  | nil =>
    intro b h
    simp only [splitSlash, List.cons.injEq, and_true] at h
    subst h
    simp
  | cons c cs ih =>
    intro b h
    simp only [splitSlash] at h
    rcases hs : splitSlash cs with _ | ⟨g, gs⟩
    · exact absurd hs (splitSlash_ne_nil cs)
    · simp only [hs] at h
      split at h
      · simp at h
      · next hc =>
        simp only [List.cons.injEq] at h
        rcases h with ⟨h1, h2⟩
        subst h2
        rcases ih g hs with ⟨hcs, hmem⟩
        subst hcs
        subst h1
        refine ⟨rfl, ?_⟩
        simp only [List.mem_cons, not_or]
        exact ⟨fun hx => hc hx.symm, hmem⟩

theorem splitSlash_pair : ∀ t a b : List Char, splitSlash t = [a, b] →
    t = a ++ ('/') :: b ∧ ('/') ∉ a ∧ ('/') ∉ b := by
  intro t
  induction t with
  | nil => intro a b h; simp [splitSlash] at h
  | cons c cs ih =>
    intro a b h
    simp only [splitSlash] at h
    rcases hs : splitSlash cs with _ | ⟨g, gs⟩
    · exact absurd hs (splitSlash_ne_nil cs)
    · simp only [hs] at h
      split at h
      · next hc =>
        simp only [List.cons.injEq] at h
        rcases h with ⟨h1, h2, h3⟩
        subst h1
        subst h2
        subst h3
        rcases splitSlash_single cs g hs with ⟨hcs, hmem⟩
        subst hcs
        subst hc
        exact ⟨rfl, by simp, hmem⟩
      · next hc =>
        simp only [List.cons.injEq] at h
        rcases h with ⟨h1, h2⟩
        subst h1
        rw [h2] at hs
        rcases ih g b hs with ⟨hcs, hga, hgb⟩
        subst hcs
        refine ⟨rfl, ?_, hgb⟩
        simp only [List.mem_cons, not_or]
        exact ⟨fun hx => hc hx.symm, hga⟩

theorem length_two_list : ∀ l : List (List Char), l.length = 2 → ∃ a b, l = [a, b] := by
  intro l h
  rcases l with _ | ⟨a, l2⟩
  · simp at h
  rcases l2 with _ | ⟨b, l3⟩
  · simp at h
  rcases l3 with _ | ⟨x, l4⟩
  · exact ⟨a, b, rfl⟩
  · simp at h

theorem dropWhile_head_false (p : Char → Bool) :
    ∀ (l : List Char) (c : Char) (cs : List Char),
      l.dropWhile p = c :: cs → p c = false := by
  intro l
  induction l with
  | nil => intro c cs h; simp [List.dropWhile] at h
  | cons x xs ih =>
    intro c cs h
    rw [List.dropWhile_cons] at h
    split at h
    · exact ih c cs h
    · next hx =>
      injection h with h1 h2
      subst h1
      cases hpc : p x with
      | false => rfl
      | true => exact absurd hpc hx

/-- The leading-slash-stripped input decomposes as the fully stripped input
followed by the stripped trailing-slash run. -/
theorem stripSlashes_decomp (s : List Char) :
    s.dropWhile isSlash
      = stripSlashes s ++ ((s.dropWhile isSlash).reverse.takeWhile isSlash).reverse := by
  have h0 : ((s.dropWhile isSlash).reverse.takeWhile isSlash)
        ++ ((s.dropWhile isSlash).reverse.dropWhile isSlash)
      = (s.dropWhile isSlash).reverse :=
    List.takeWhile_append_dropWhile isSlash ((s.dropWhile isSlash).reverse)
  have h1 := congrArg List.reverse h0
  rw [List.reverse_append, List.reverse_reverse] at h1
  unfold stripSlashes
  exact h1.symm

theorem stripSlashes_boundary (s a b : List Char)
    (h : stripSlashes s = a ++ ('/') :: b) : a ≠ [] ∧ b ≠ [] := by
  constructor
  · intro ha
    subst ha
    have hd := stripSlashes_decomp s
    rw [h] at hd
    simp only [List.nil_append, List.cons_append] at hd
    have := dropWhile_head_false isSlash s ('/') _ hd
    simp [isSlash] at this
  · intro hb
    subst hb
    have hv : (s.dropWhile isSlash).reverse.dropWhile isSlash
        = (stripSlashes s).reverse := by
      unfold stripSlashes
      rw [List.reverse_reverse]
    rw [h] at hv
    simp only [List.reverse_append] at hv
    have := dropWhile_head_false isSlash ((s.dropWhile isSlash).reverse) ('/') _ hv
    simp [isSlash] at this

/-- C4: for every outcome of parsing the input URL, `validate_github_url`
accepts only when parsing succeeded, the URL's host (`.netloc`) is the single
recognized domain `github.com`, and the stripped path component consists of
exactly two nonempty slash-free segments (owner/repository); the parse
outcome of the one-segment URL `https://github.com/owner` — netloc
`github.com`, path `/owner` — is rejected; and whenever validation rejects,
`create_graph_from_github_repo` raises `Invalid GitHub repository URL` before
any network or clone action is attempted: no temporary directory is created
and the outcome is identical for every clone result. -/
theorem github_url_validation_spec :
    (∀ parsed : Except String UrlParts, validate_github_url parsed = true →
        ∃ p, parsed = Except.ok p ∧ p.netloc = ("github.com")
          ∧ ∃ a b : List Char, a ≠ [] ∧ b ≠ [] ∧ ('/') ∉ a ∧ ('/') ∉ b
              ∧ stripSlashes p.path.data = a ++ ('/') :: b)
      ∧ validate_github_url (Except.ok ⟨("github.com"), ("/owner")⟩) = false
      ∧ ∀ (parsed : Except String UrlParts)
          (cloneResult : Except String (List FileEntry)),
          validate_github_url parsed = false →
            create_graph_from_github_repo parsed cloneResult
              = ⟨Except.error ("Invalid GitHub repository URL"), false, false⟩ := by
  refine ⟨?_, by decide, ?_⟩
  · intro parsed h
    cases parsed with
    | error m => simp [validate_github_url] at h
    | ok p =>
      refine ⟨p, rfl, ?_⟩
      unfold validate_github_url at h
      simp only [Bool.and_eq_true, decide_eq_true_eq] at h
      rcases h with ⟨h1, h2⟩
      refine ⟨h1, ?_⟩
      rcases length_two_list _ h2 with ⟨a, b, hab⟩
      rcases splitSlash_pair _ a b hab with ⟨ht, ha, hb⟩
      rcases stripSlashes_boundary _ a b ht with ⟨hane, hbne⟩
      exact ⟨a, b, hane, hbne, ha, hb, ht⟩
  · intro parsed cloneResult h
    simp [create_graph_from_github_repo, h]

/-- Witness for C4: the accepting side at the parse outcome of
`https://github.com/owner/repo` (netloc `github.com`, path `/owner/repo`) and
the rejecting side at the parse outcome of the one-segment URL. -/
theorem github_url_validation_spec_witness :
    (∃ p, Except.ok ⟨("github.com"), ("/owner/repo")⟩
            = (Except.ok p : Except String UrlParts)
        ∧ p.netloc = ("github.com")
        ∧ ∃ a b : List Char, a ≠ [] ∧ b ≠ [] ∧ ('/') ∉ a ∧ ('/') ∉ b
            ∧ stripSlashes p.path.data = a ++ ('/') :: b)
      ∧ create_graph_from_github_repo (Except.ok ⟨("github.com"), ("/owner")⟩)
            (Except.ok [])
          = ⟨Except.error ("Invalid GitHub repository URL"), false, false⟩ :=
  ⟨github_url_validation_spec.1 (Except.ok ⟨("github.com"), ("/owner/repo")⟩)
      (by decide),
    github_url_validation_spec.2.2 (Except.ok ⟨("github.com"), ("/owner")⟩)
      (Except.ok []) (by decide)⟩

end ProjectVisualizer
